import Mathlib

/-!
Verification development for the `vite-plugin-virtual-mpa` plugin core
(`src/plugin.ts`).  Strings are modelled as `List Char` (`Str`), JavaScript
objects as association lists, and the file-system / HTTP collaborators are
parameters.  The composite route regex built in `config` (line 132) has the
fixed shape `PREFIX(n1|n2|...)(?:\.html?)?(\?|#|$).*`; its matching semantics
is embedded directly (`regexSearch`), treating the serving prefix as literal
text and interpreting a page name as the ECMAScript pattern it denotes when
the name consists of literal characters and `.` wildcards (no other regex
metacharacter).  The theorems that quantify over page names carry this
alphabet restriction explicitly (`goodName`).
-/

abbrev Str := List Char

/-- Generic first-match association-list lookup, modelling JavaScript
property lookup on the objects built by the plugin (their keys are unique
by construction, so first match equals JS lookup). -/
def lookupL (k : Str) : List (Str × β) → Option β
  | [] => none
  | (a, b) :: rest => if a = k then some b else lookupL k rest

/-- Membership test for a character in a string. -/
def memC (c : Char) : Str → Bool
  | [] => false
  | d :: ds => if d = c then true else memC c ds

/-- Membership test for a string in a list of strings. -/
def memL (x : Str) : List Str → Bool
  | [] => false
  | y :: ys => if y = x then true else memL x ys

/-- Strip an exact literal from the front of a string
(`some rest` on success). -/
def stripLit : Str → Str → Option Str
  | [], s => some s
  | _ :: _, [] => none
  | c :: cs, d :: ds => if c = d then stripLit cs ds else none

/-- Does the string start with a slash?  Models `startsWith('/')`. -/
def startsSlash : Str → Bool
  | [] => false
  | c :: _ => c = '/'

/-- Does `s` end with `pat`?  Models `String.prototype.endsWith`. -/
def endsWithL (pat s : Str) : Bool := (stripLit pat.reverse s.reverse).isSome

/-- JavaScript truthiness of an optional string: absent and empty are falsy. -/
def truthyS : Option Str → Bool
  | none => false
  | some s => !s.isEmpty

/- ---------- posix path helpers (node `path` / vite `normalizePath`) ----- -/

/-- Split a string on slashes. -/
def splitSlashAux (cur : Str) : Str → List Str
  | [] => [cur.reverse]
  | c :: cs => if c = '/' then cur.reverse :: splitSlashAux [] cs else splitSlashAux (c :: cur) cs

/-- Split a path into its `/`-separated pieces. -/
def splitSlash (p : Str) : List Str := splitSlashAux [] p

/-- The `..` path segment. -/
def dotdot : Str := ['.', '.']

/-- Core of `path.posix.normalize`: process the non-empty, non-`.` segments,
resolving `..` against a stack (`acc` holds the output reversed). -/
def normSegsAux (isAbs : Bool) : List Str → List Str → List Str
  | acc, [] => acc.reverse
  | acc, s :: rest =>
    if s = dotdot then
      match acc with
      | [] => if isAbs then normSegsAux isAbs [] rest else normSegsAux isAbs [dotdot] rest
      | t :: acc' =>
        if t = dotdot then normSegsAux isAbs (s :: acc) rest else normSegsAux isAbs acc' rest
    else normSegsAux isAbs (s :: acc) rest

/-- Model of vite's `normalizePath` on posix systems, i.e.
`path.posix.normalize`: collapse duplicate slashes, drop `.` segments,
resolve `..` segments, preserve a trailing slash. -/
def posixNormalize (p : Str) : Str :=
  if p = [] then ['.']
  else
    let isAbs := startsSlash p
    let trail := startsSlash p.reverse
    let segs := (splitSlash p).filter (fun s => !(s.isEmpty || s = ['.']))
    let out := normSegsAux isAbs [] segs
    let body := List.intercalate ['/'] out
    if isAbs then
      '/' :: (body ++ (if trail && !body.isEmpty then ['/'] else []))
    else
      if body.isEmpty then (if trail then ['.', '/'] else ['.'])
      else body ++ (if trail then ['/'] else [])

/-- Segment list of an absolute posix path after resolution
(`path.posix.resolve` of an absolute path). -/
def resolveSegs (p : Str) : List Str :=
  normSegsAux true [] ((splitSlash p).filter (fun s => !(s.isEmpty || s = ['.'])))

/-- Drop the common leading segments of two segment lists. -/
def dropCommon : List Str → List Str → List Str × List Str
  | a :: as, b :: bs => if a = b then dropCommon as bs else (a :: as, b :: bs)
  | as, bs => (as, bs)

/-- Model of `path.posix.relative` for absolute inputs (the dev server's
project root and the watcher's file paths are absolute). -/
def pathRelative (fromP toP : Str) : Str :=
  let pr := dropCommon (resolveSegs fromP) (resolveSegs toP)
  List.intercalate ['/'] (List.replicate pr.1.length dotdot ++ pr.2)

/- ---------- data model and table construction (configInit) -------------- -/

/-- The `.html` extension used for default filenames and the watcher guard. -/
def htmlExt : Str := ['.', 'h', 't', 'm', 'l']

/-- A page configuration (`Page` of the plugin's api-types): a name, an
optional served filename, an optional absolute script entry, an optional
template path, and the render-time variables. -/
structure Page where
  name : Str
  filename : Option Str := none
  entry : Option Str := none
  template : Option Str := none
  data : List (Str × Str) := []
deriving DecidableEq

/-- The module-level state rebuilt by `configInit` (lines 43-71):
`inputMap` (name → served path), `virtualPageMap` (served path → page) and
the template set, all in insertion order. -/
structure TableState where
  inputMap : List (Str × Str)
  virtualPageMap : List (Str × Page)
  tplSet : List Str
deriving DecidableEq

/-- Outcome of table construction: a new state, or the message of the
`throwError` exception that aborted it. -/
inductive CfgResult where
  | ok (t : TableState)
  | err (msg : Str)
deriving DecidableEq

/-- The served path of a page: `page.filename || page.name + ".html"`
(line 50; an empty filename is falsy in JS and falls back to the default). -/
def entryPathOf (page : Page) : Str :=
  match page.filename with
  | some f => if f.isEmpty then page.name ++ htmlExt else f
  | none => page.name ++ htmlExt

/-- Replace the value at `k` if present (keeping key order), else append;
models assignment `obj[k] = v` on a JS object. -/
def assocSet (m : List (Str × Page)) (k : Str) (v : Page) : List (Str × Page) :=
  if (lookupL k m).isSome then m.map (fun q => if q.1 = k then (k, v) else q) else m ++ [(k, v)]

/-- Add a page template to the template set (line 63:
`page.template && tempTplSet.add(page.template)`; empty is falsy). -/
def addTpl (s : List Str) (t : Option Str) : List Str :=
  match t with
  | none => s
  | some tt => if tt.isEmpty then s else if memL tt s then s else s ++ [tt]

/-- One iteration of the `configInit` loop (lines 49-64): validate, then
either skip an already-registered name or register the page. -/
def configStep (st : TableState) (page : Page) : CfgResult :=
  let entryPath := entryPathOf page
  if startsSlash entryPath then
    .err ("Make sure the path relative, received ".data ++ entryPath)
  else if memC '/' page.name then
    .err ("Page name should not include /, received ".data ++ page.name)
  else if truthyS page.entry && !startsSlash (page.entry.getD []) then
    .err ("Entry must be an absolute path relative to the project root".data)
  else if (lookupL page.name st.inputMap).isSome then .ok st
  else
    .ok { inputMap := st.inputMap ++ [(page.name, entryPathOf page)]
        , virtualPageMap := assocSet st.virtualPageMap (entryPathOf page) page
        , tplSet := addTpl st.tplSet page.template }

/-- Fold `configStep` over a page list; a thrown error aborts the fold. -/
def configInitAux (st : TableState) : List Page → CfgResult
  | [] => .ok st
  | p :: ps =>
    match configStep st p with
    | .ok st' => configInitAux st' ps
    | .err e => .err e

/-- `configInit(pages)` (lines 43-71): builds fresh maps from scratch, with
the template set seeded with the default template.  The caller passes the
concatenation of explicit and discovered pages (line 49). -/
def configInitL (template : Str) (pages : List Page) : CfgResult :=
  configInitAux ⟨[], [], [template]⟩ pages

/- ---------- the composite route regex ----------------------------------- -/

/-- Source text of the `rewriteReg` regular expression built at line 132:
`normalizePath('/' + base + '/') + '(' + names.join('|') + ')(?:\.html?)?(\?|#|$).*'`. -/
def rewriteRegSource (base : Str) (names : List Str) : Str :=
  posixNormalize (('/' :: base) ++ ['/']) ++ ('(' :: List.intercalate ['|'] names) ++ (")(?:\\.html?)?(\\?|#|$).*".data)

/-- The regex metacharacters of ECMAScript patterns. -/
def metaChars : Str := ['.', '*', '+', '?', '^', '$', '(', ')', '[', ']', '|', '\\', Char.ofNat 123, Char.ofNat 125]

/-- Modelled from the spec: escaping of a page name "for literal pattern
use" (the spec's composite-pattern description; no escaping exists in
`src/plugin.ts`). -/
def escapeRegex : Str → Str
  | [] => []
  | c :: cs => (if memC c metaChars then ['\\', c] else [c]) ++ escapeRegex cs

/-- Modelled from the spec: the composite matcher pattern the spec claims,
`^/{base}/(name1|name2|...)(\.html?)?(\?|#|$).*`, anchored and with each
name escaped. -/
def specCompositePattern (base : Str) (names : List Str) : Str :=
  ('^' :: '/' :: base) ++ ('/' :: '(' :: List.intercalate ['|'] (names.map escapeRegex)) ++ (")(\\.html?)?(\\?|#|$).*".data)

/-- Modelled from the spec as amended: the unanchored pattern actually
built, names joined verbatim (unescaped) and the `.html?` group
non-capturing. -/
def specCompositePatternAmended (base : Str) (names : List Str) : Str :=
  posixNormalize (('/' :: base) ++ ['/']) ++ ('(' :: List.intercalate ['|'] names) ++ (")(?:\\.html?)?(\\?|#|$).*".data)

/- ---------- matching semantics of the composite regex ------------------- -/

/-- One pattern character of a page-name alternative: a literal character,
or the `.` wildcard (ECMAScript `.`, matching anything but a newline). -/
inductive RChar where
  | lit (c : Char)
  | any
deriving DecidableEq

/-- Does a pattern character match an input character? -/
def rmatches : RChar → Char → Bool
  | .lit a, c => a = c
  | .any, c => !(c = '\n')

/-- The ECMAScript pattern denoted by a page name over the literal+dot
alphabet: `.` is the wildcard, every other character matches itself. -/
def nameToR : Str → List RChar
  | [] => []
  | c :: cs => (if c = '.' then RChar.any else RChar.lit c) :: nameToR cs

/-- Match a fixed-length name pattern at the front of the input, returning
the consumed text (the capture of group 1) and the rest. -/
def consume : List RChar → Str → Option (Str × Str)
  | [], s => some ([], s)
  | _ :: _, [] => none
  | r :: rs, c :: cs =>
    if rmatches r c then
      match consume rs cs with
      | some (t, rest) => some (c :: t, rest)
      | none => none
    else none

/-- The `.htm` prefix of the optional extension group. -/
def htmExt : Str := ['.', 'h', 't', 'm']

/-- Does `(\?|#|$)` match at the front of the string? -/
def isDelim : Str → Bool
  | [] => true
  | c :: _ => c = '?' || c = '#'

/-- Can `(?:\.html?)?(\?|#|$).*` match the whole rest?  The trailing `.*`
never fails, so only the optional extension and the delimiter matter. -/
def tailMatch (s : Str) : Bool :=
  (match stripLit htmlExt s with
   | some r => isDelim r
   | none => false)
  || (match stripLit htmExt s with
      | some r => isDelim r
      | none => false)
  || isDelim s

/-- Try the name alternatives in order (ECMAScript alternation is ordered);
an alternative succeeds when the name matches and the tail pattern matches
what follows.  Returns the text captured by group 1. -/
def altMatch : List Str → Str → Option Str
  | [], _ => none
  | n :: ns, s =>
    match consume (nameToR n) s with
    | some (t, rest) => if tailMatch rest then some t else altMatch ns s
    | none => altMatch ns s

/-- Attempt the whole pattern at the current position: the serving prefix
as literal text, then the alternation and tail. -/
def matchHere (pre : Str) (names : List Str) (s : Str) : Option Str :=
  match stripLit pre s with
  | some r => altMatch names r
  | none => none

/-- Unanchored search, leftmost position first: the semantics of
`pathname.match(rewriteReg)` restricted to group 1. -/
def regexSearch (pre : Str) (names : List Str) : Str → Option Str
  | [] => matchHere pre names []
  | c :: cs =>
    match matchHere pre names (c :: cs) with
    | some t => some t
    | none => regexSearch pre names cs

/-- Keys of an association list, in order; models `Object.keys(inputMap)`. -/
def tableNames (m : List (Str × β)) : List Str := m.map Prod.fst

/-- Route resolution of the dev middleware (lines 279-284):
`inputMapKey = pathname.match(rewriteReg)?.[1]` then
`fileName = inputMapKey ? inputMap[inputMapKey] : null`, with `null`
handed to the next handler.  Empty strings are falsy in JS, hence the two
emptiness checks. -/
def resolveRoute (pre : Str) (inputMap : List (Str × Str)) (pathname : Str) : Option Str :=
  match regexSearch pre (tableNames inputMap) pathname with
  | none => none
  | some key =>
    if key.isEmpty then none
    else
      match lookupL key inputMap with
      | none => none
      | some f => if f.isEmpty then none else some f

/- ---------- custom rewrites (lines 255-284) ----------------------------- -/

/-- A custom rewrite rule.  `test` models `rule.from.test(pathname)`.
Modelled from the spec: `eval` stands for `evaluateRewriteRule(parsedUrl,
match, rule.to)` from `utils` (not under `src/`) — substitution of the
match into the target, or invocation of a target function. -/
structure RewriteRule where
  test : Str → Bool
  eval : Str → Str

/-- What the dev middleware decides to do with an html request. -/
inductive RouteAction where
  | rewriteTo (target : Str)
  | serveVirtual (file : Str)
  | passThrough
deriving DecidableEq

/-- The routing decision of the dev middleware for an eligible html request
(lines 255-284): first matching custom rewrite wins and returns
immediately; otherwise the composite pattern resolves a virtual page;
otherwise the request passes through. -/
def middlewareRoute (rules : List RewriteRule) (pre : Str) (inputMap : List (Str × Str)) (pathname : Str) : RouteAction :=
  match rules.find? (fun r => r.test pathname) with
  | some r => .rewriteTo (r.eval pathname)
  | none =>
    match resolveRoute pre inputMap pathname with
    | some f => .serveVirtual f
    | none => .passThrough

/- ---------- template transform (lines 103-126) -------------------------- -/

/-- The literal text matched by the `bodyInject` regex `/<\/body>/`. -/
def bodyTag : Str := "</body>".data

/-- Split a string at the first occurrence of `pat`:
`some (before, after)` with the input equal to `before ++ pat ++ after`. -/
def splitFirst (pat : Str) : Str → Option (Str × Str)
  | [] =>
    (match stripLit pat [] with
     | some r => some ([], r)
     | none => none)
  | c :: cs =>
    match stripLit pat (c :: cs) with
    | some r => some ([], r)
    | none =>
      match splitFirst pat cs with
      | some (b, a) => some (c :: b, a)
      | none => none

/-- ECMAScript `GetSubstitution` for a replacement string when the pattern
has no capture groups: `$$` is a dollar, `$&` the matched text, a
backtick-dollar the preceding text, a quote-dollar the following text;
any other `$` is literal. -/
def expandRepl (matched before after : Str) : Str → Str
  | [] => []
  | c :: rest =>
    if c = '$' then
      match rest with
      | [] => ['$']
      | d :: rest2 =>
        if d = '$' then '$' :: expandRepl matched before after rest2
        else if d = '&' then matched ++ expandRepl matched before after rest2
        else if d = Char.ofNat 96 then before ++ expandRepl matched before after rest2
        else if d = Char.ofNat 39 then after ++ expandRepl matched before after rest2
        else '$' :: expandRepl matched before after (d :: rest2)
    else c :: expandRepl matched before after rest

/-- `String.prototype.replace` with a non-global literal-text regex:
replace the first occurrence, expanding `$` sequences in the replacement. -/
def replaceFirst (pat repl s : Str) : Str :=
  match splitFirst pat s with
  | none => s
  | some (b, a) => b ++ expandRepl pat b a repl ++ a

/-- Opening text of the injected script tag (line 117). -/
def scriptPre : Str := "<script type=\"module\" src=\"".data

/-- Closing text of the injected script tag plus the reinserted body tag
(lines 119-120 of the replacement template). -/
def scriptPost : Str := "\"></script>\n</body>".data

/-- Entry injection of `transform` (lines 112-120): with a truthy entry,
replace the first `</body>` by the script tag (referencing the normalized
entry) followed by `</body>`; otherwise leave the content alone. -/
def applyEntry (page : Page) (fileContent : Str) : Str :=
  match page.entry with
  | none => fileContent
  | some e =>
    if e.isEmpty then fileContent
    else replaceFirst bodyTag (scriptPre ++ posixNormalize e ++ scriptPost) fileContent

/-- The variable scope passed to `ejs.render` (line 122):
`\x7b ...resolvedConfig.env, ...page.data \x7d`, i.e. the env assignments
followed by the page-data assignments (later assignments win on lookup). -/
def transformScope (env data : List (Str × Str)) : List (Str × Str) := env ++ data

/-- JS object lookup on an assignment list where later assignments
override earlier ones (the semantics of object spread). -/
def objLookup (k : Str) : List (Str × α) → Option α
  | [] => none
  | (a, b) :: rest =>
    match objLookup k rest with
    | some v => some v
    | none => if a = k then some b else none

/-- The `transform` hook (lines 103-126): `null` (here `none`) when the id
is not a registered virtual path, otherwise the result of the templating
pass (`render` abstracts `ejs.render`) over the entry-injected content
with the merged variable scope. -/
def transform (pageMap : List (Str × Page)) (env : List (Str × Str))
    (render : Str → List (Str × Str) → Str) (fileContent i : Str) : Option Str :=
  match lookupL i pageMap with
  | none => none
  | some page => some (render (applyEntry page fileContent) (transformScope env page.data))

/- ---------- watcher change handler (lines 214-225) ---------------------- -/

/-- Does the `watcher.on('change')` handler broadcast the full-reload
signal for `file`?  It requires the raw path to end in `.html` and the
root-relative path to be a member of the template set. -/
def onChange (tplSet : List Str) (root file : Str) : Bool :=
  endsWithL htmlExt file && memL (pathRelative root file) tplSet

/- ---------- name alphabet restriction for the regex model --------------- -/

/-- A character that the regex model treats reliably as a literal: not a
metacharacter, and not one of the delimiter or separator characters
`#`, `/`, newline (`?` and `.` are already metacharacters). -/
def goodChar (c : Char) : Bool := !(memC c metaChars || c = '#' || c = '/' || c = '\n')

/-- A page name made only of such literal characters. -/
def goodName (n : Str) : Prop := ∀ c ∈ n, goodChar c = true

/-- Every name of the list is a literal name. -/
def goodNames (l : List Str) : Prop := ∀ n ∈ l, goodName n

instance (n : Str) : Decidable (goodName n) := by
  unfold goodName
  infer_instance

instance (l : List Str) : Decidable (goodNames l) := by
  unfold goodNames
  infer_instance

/-- The suffix of a string after its last slash (the whole string when it
has none). -/
def afterLastSlash (s : Str) : Str := (s.reverse.takeWhile (fun c => !(c = '/'))).reverse

/- ======================= helper lemmas ================================== -/

theorem stripLit_self (a b : Str) : stripLit a (a ++ b) = some b := by
  induction a with
  | nil => rfl
  | cons c cs ih => simp [stripLit, ih]

theorem stripLit_some (a : Str) : ∀ s r, stripLit a s = some r → s = a ++ r := by
  induction a with
  | nil =>
    intro s r h
    simp [stripLit] at h
    simp [h]
  | cons c cs ih =>
    intro s r h
    cases s with
    | nil => simp [stripLit] at h
    | cons d ds =>
      unfold stripLit at h
      by_cases hcd : c = d
      · rw [if_pos hcd] at h
        have := ih ds r h
        simp [this, hcd]
      · rw [if_neg hcd] at h
        cases h

theorem stripLit_nil_none (a : Str) (h : a ≠ []) : stripLit a [] = none := by
  cases a with
  | nil => exact absurd rfl h
  | cons c cs => rfl

theorem lookupL_append_some {β : Type} (k : Str) (m m' : List (Str × β)) (v : β)
    (h : lookupL k m = some v) : lookupL k (m ++ m') = some v := by
  induction m with
  | nil => simp [lookupL] at h
  | cons p tl ih =>
    obtain ⟨a, b⟩ := p
    by_cases hak : a = k
    · simp [lookupL, hak] at h ⊢
      exact h
    · simp [lookupL, hak] at h ⊢
      exact ih h

theorem lookupL_append_self {β : Type} (k : Str) (m : List (Str × β)) (v0 : β) :
    ∃ v, lookupL k (m ++ [(k, v0)]) = some v := by
  induction m with
  | nil => exact ⟨v0, by simp [lookupL]⟩
  | cons p tl ih =>
    obtain ⟨a, b⟩ := p
    by_cases hak : a = k
    · exact ⟨b, by simp [lookupL, hak]⟩
    · obtain ⟨v, hv⟩ := ih
      exact ⟨v, by simpa [lookupL, hak] using hv⟩

theorem lookupL_mem {β : Type} (k : Str) (m : List (Str × β)) (v : β)
    (h : lookupL k m = some v) : k ∈ tableNames m := by
  induction m with
  | nil => simp [lookupL] at h
  | cons p tl ih =>
    obtain ⟨a, b⟩ := p
    by_cases hak : a = k
    · subst hak
      exact List.mem_cons_self a (tableNames tl)
    · simp only [lookupL, if_neg hak] at h
      exact List.mem_cons_of_mem a (ih h)

theorem objLookup_append_some {α : Type} (k : Str) (ys : List (Str × α)) (v : α)
    (h : objLookup k ys = some v) : ∀ xs, objLookup k (xs ++ ys) = some v := by
  intro xs
  induction xs with
  | nil => simpa using h
  | cons p tl ih =>
    obtain ⟨a, b⟩ := p
    simp [objLookup, ih]

theorem objLookup_append_none {α : Type} (k : Str) (ys : List (Str × α))
    (h : objLookup k ys = none) : ∀ xs, objLookup k (xs ++ ys) = objLookup k xs := by
  intro xs
  induction xs with
  | nil => simpa [objLookup] using h
  | cons p tl ih =>
    obtain ⟨a, b⟩ := p
    simp [objLookup, ih]

/- ======================= C9: render scope =============================== -/

/-- Claim C9: the variable scope used by the template rendering pass is the
union of the environment's variables and the page's data mapping, and for
every key present in both, the value from `page.data` is the one used
(`page.data` takes precedence on collision); `transform` passes exactly
this scope to the render pass. -/
theorem claim_c9 :
    (∀ (env data : List (Str × Str)) (k : Str) (v : Str), objLookup k data = some v →
      objLookup k (transformScope env data) = some v)
  ∧ (∀ (env data : List (Str × Str)) (k : Str), objLookup k data = none →
      objLookup k (transformScope env data) = objLookup k env)
  ∧ (∀ (pageMap : List (Str × Page)) (env : List (Str × Str))
       (render : Str → List (Str × Str) → Str) (c i : Str) (page : Page),
      lookupL i pageMap = some page →
      transform pageMap env render c i
        = some (render (applyEntry page c) (transformScope env page.data))) := by
  refine ⟨?_, ?_, ?_⟩
  · intro env data k v h
    exact objLookup_append_some k data v h env
  · intro env data k h
    exact objLookup_append_none k data h env
  · intro pageMap env render c i page h
    simp [transform, h]

/-- Witness for C9 at a concrete colliding key. -/
theorem claim_c9_witness :
    objLookup ("k".data) (transformScope [(("k").data, ("envv").data)] [(("k").data, ("datav").data)])
      = some ("datav".data) :=
  claim_c9.1 [(("k").data, ("envv").data)] [(("k").data, ("datav").data)] ("k".data) ("datav".data) (by decide)

/- ======================= C3: unchanged signal =========================== -/

/-- A page with only a name (no entry, no explicit template). -/
def pgPlain : Page := { name := "a".data }

/-- Claim C3 counterexample: for a registered page with no entry and a
templating pass that produces the very same string, `transform` still
returns a produced value, not the distinct "unchanged" signal (`null`). -/
theorem claim_c3_counterexample :
    transform [(("a.html").data, pgPlain)] [] (fun c _ => c) ("<p>x</p>".data) ("a.html".data)
      = some ("<p>x</p>".data)
  ∧ lookupL ("a.html".data) [(("a.html").data, pgPlain)] = some pgPlain
  ∧ pgPlain.entry = none
  ∧ (some ("<p>x</p>".data) : Option Str) ≠ none := by
  exact ⟨by decide, by decide, rfl, by decide⟩

/-- Claim C3 as amended: `transform` returns the distinct "unchanged"
signal (`null`) exactly when the id is not a registered virtual path; for
every registered page it returns the templating pass's result — even when
no modification was applied — never the unchanged signal. -/
theorem claim_c3 :
    (∀ (pageMap : List (Str × Page)) (env : List (Str × Str))
       (render : Str → List (Str × Str) → Str) (c i : Str),
      transform pageMap env render c i = none ↔ lookupL i pageMap = none)
  ∧ (∀ (pageMap : List (Str × Page)) (env : List (Str × Str))
       (render : Str → List (Str × Str) → Str) (c i : Str) (page : Page),
      lookupL i pageMap = some page →
      transform pageMap env render c i
        = some (render (applyEntry page c) (transformScope env page.data))) := by
  constructor
  · intro pageMap env render c i
    unfold transform
    cases h : lookupL i pageMap <;> simp
  · intro pageMap env render c i page h
    simp [transform, h]

/-- Witness for C3 at an unregistered id. -/
theorem claim_c3_witness :
    transform [(("a.html").data, pgPlain)] [] (fun c _ => c) ("y".data) ("zz".data) = none :=
  (claim_c3.1 [(("a.html").data, pgPlain)] [] (fun c _ => c) ("y".data) ("zz".data)).mpr (by decide)

/- ======================= C10: no closing body tag ======================= -/

/-- A page with a set entry. -/
def pgM : Page := { name := "a".data, entry := some ("/src/main.ts".data) }

/-- Claim C10: for every page with a set entry whose template content
contains no closing body tag, rendering silently applies no script
injection: the output is the templating pass applied to the raw content
unmodified, with no error raised. -/
theorem claim_c10 (pageMap : List (Str × Page)) (env : List (Str × Str))
    (render : Str → List (Str × Str) → Str) (content i : Str) (page : Page) (e : Str)
    (hpg : lookupL i pageMap = some page) (he : page.entry = some e)
    (hne : e.isEmpty = false)
    (hnb : splitFirst bodyTag content = none) :
    transform pageMap env render content i
      = some (render content (transformScope env page.data)) := by
  simp [transform, hpg, applyEntry, he, hne, replaceFirst, hnb]

/-- Witness for C10: a body-less template passes through the render
unmodified. -/
theorem claim_c10_witness :
    transform [(("a.html").data, pgM)] [] (fun c _ => c) ("hello".data) ("a.html".data)
      = some ("hello".data) := by
  have h := claim_c10 [(("a.html").data, pgM)] [] (fun c _ => c) ("hello".data)
    ("a.html".data) pgM ("/src/main.ts".data) (by decide) (by decide) (by decide) (by decide)
  simpa using h

/- ======================= C2: full-reload trigger ======================== -/

/-- A page with only a name, named "a". -/
def pgA : Page := { name := "a".data }

/-- Claim C2 counterexample: with a default template `custom.tpl`, the
template set contains `custom.tpl`, the changed file resolves to exactly
that root-relative path, yet no full-reload signal is broadcast (the
handler first requires the raw path to end in `.html`). -/
theorem claim_c2_counterexample :
    configInitL ("custom.tpl".data) [pgA]
      = .ok ⟨[(("a").data, ("a.html").data)], [(("a.html").data, pgA)], [("custom.tpl").data]⟩
  ∧ pathRelative ("/proj".data) ("/proj/custom.tpl".data) = ("custom.tpl").data
  ∧ memL ("custom.tpl".data) [("custom.tpl").data] = true
  ∧ onChange [("custom.tpl").data] ("/proj".data) ("/proj/custom.tpl".data) = false := by
  decide

/-- Claim C2 as amended: a change event for a file whose root-relative path
is not in the template set never broadcasts the full-reload signal; for a
file whose root-relative path is in the template set the signal is
broadcast if and only if the raw file path ends in `.html`. -/
theorem claim_c2 (tplSet : List Str) (root file : Str) :
    (memL (pathRelative root file) tplSet = false → onChange tplSet root file = false)
  ∧ (memL (pathRelative root file) tplSet = true →
      onChange tplSet root file = endsWithL htmlExt file) := by
  constructor
  · intro h
    simp [onChange, h]
  · intro h
    simp [onChange, h]

/-- Witness for C2: a stylesheet outside the template set never triggers. -/
theorem claim_c2_witness :
    onChange [("index.html").data] ("/proj".data) ("/other/x.css".data) = false :=
  (claim_c2 [("index.html").data] ("/proj".data) ("/other/x.css".data)).1 (by decide)

/- ======================= C6: rewrite precedence ========================= -/

theorem find_first_true {α : Type} (p : α → Bool) (rs₁ : List α) (r : α) (rs₂ : List α)
    (h1 : ∀ x ∈ rs₁, p x = false) (hr : p r = true) :
    (rs₁ ++ r :: rs₂).find? p = some r := by
  induction rs₁ with
  | nil => simp [List.find?, hr]
  | cons a tl ih =>
    have ha := h1 a (List.mem_cons_self a tl)
    simp only [List.cons_append, List.find?, ha]
    exact ih fun x hx => h1 x (List.mem_cons_of_mem a hx)

/-- Claim C6: custom rewrite rules are evaluated strictly in declaration
order against the request pathname, the first rule whose `from` pattern
matches is used, and when a pathname matches both a custom rewrite rule
and a registered page, the custom rewrite's target is used — the
virtual-page resolution is not consulted. -/
theorem claim_c6 (rules : List RewriteRule) (pre : Str) (inputMap : List (Str × Str))
    (pathname : Str) (r : RewriteRule) (rs₁ rs₂ : List RewriteRule)
    (hsplit : rules = rs₁ ++ r :: rs₂)
    (hbefore : ∀ r' ∈ rs₁, r'.test pathname = false)
    (hr : r.test pathname = true) :
    middlewareRoute rules pre inputMap pathname = .rewriteTo (r.eval pathname)
  ∧ ∀ f, resolveRoute pre inputMap pathname = some f →
      middlewareRoute rules pre inputMap pathname ≠ .serveVirtual f := by
  have hfind : rules.find? (fun q => q.test pathname) = some r := by
    subst hsplit
    exact find_first_true _ rs₁ r rs₂ hbefore hr
  constructor
  · simp [middlewareRoute, hfind]
  · intro f _
    simp [middlewareRoute, hfind]

/-- A concrete rewrite rule matching `/x` and targeting `/y.html`. -/
def cRule : RewriteRule := ⟨fun s => s == ("/x".data), fun _ => ("/y.html".data)⟩

/-- Witness for C6: the single matching rule is applied. -/
theorem claim_c6_witness :
    middlewareRoute [cRule] ("/".data) [] ("/x".data) = .rewriteTo ("/y.html".data) :=
  (claim_c6 [cRule] ("/".data) [] ("/x".data) cRule [] [] rfl (by intro r' h; cases h)
    (by decide)).1

/- ======================= C5/C7: configInit lemmas ======================= -/

theorem configInitAux_append (l1 : List Page) : ∀ (st : TableState) (l2 : List Page),
    configInitAux st (l1 ++ l2) = match configInitAux st l1 with
      | .ok st' => configInitAux st' l2
      | .err e => .err e := by
  induction l1 with
  | nil => intro st l2; rfl
  | cons p tl ih =>
    intro st l2
    simp only [List.cons_append, configInitAux]
    cases configStep st p with
    | ok st' => exact ih st' l2
    | err e => rfl

theorem configStep_ok_cases (st : TableState) (p : Page) (st' : TableState)
    (h : configStep st p = .ok st') :
    st' = st ∨ st'.inputMap = st.inputMap ++ [(p.name, entryPathOf p)] := by
  unfold configStep at h
  by_cases h1 : startsSlash (entryPathOf p) = true
  · simp [h1] at h
  · simp only [h1] at h
    by_cases h2 : memC '/' p.name = true
    · simp [h2] at h
    · simp only [h2] at h
      by_cases h3 : (truthyS p.entry && !startsSlash (p.entry.getD [])) = true
      · simp [h3] at h
      · simp only [h3] at h
        by_cases h4 : (lookupL p.name st.inputMap).isSome = true
        · simp only [h4, if_true, if_neg, Bool.false_eq_true] at h
          left
          cases h
          rfl
        · simp only [h4] at h
          right
          cases h
          rfl

theorem configStep_preserves (st : TableState) (p : Page) (st' : TableState) (k : Str) (v : Str)
    (h : configStep st p = .ok st') (hk : lookupL k st.inputMap = some v) :
    lookupL k st'.inputMap = some v := by
  rcases configStep_ok_cases st p st' h with rfl | hm
  · exact hk
  · rw [hm]
    exact lookupL_append_some k st.inputMap _ v hk

theorem configInitAux_preserves (k : Str) (v : Str) :
    ∀ (l : List Page) (st st' : TableState), configInitAux st l = .ok st' →
      lookupL k st.inputMap = some v → lookupL k st'.inputMap = some v := by
  intro l
  induction l with
  | nil =>
    intro st st' h hk
    cases h
    exact hk
  | cons p tl ih =>
    intro st st' h hk
    unfold configInitAux at h
    cases hc : configStep st p with
    | ok st1 =>
      rw [hc] at h
      exact ih st1 st' h (configStep_preserves st p st1 k v hc hk)
    | err e =>
      rw [hc] at h
      cases h

theorem configStep_registers (st : TableState) (p : Page) (st' : TableState)
    (h : configStep st p = .ok st') : ∃ v, lookupL p.name st'.inputMap = some v := by
  unfold configStep at h
  by_cases h1 : startsSlash (entryPathOf p) = true
  · simp [h1] at h
  · simp only [h1] at h
    by_cases h2 : memC '/' p.name = true
    · simp [h2] at h
    · simp only [h2] at h
      by_cases h3 : (truthyS p.entry && !startsSlash (p.entry.getD [])) = true
      · simp [h3] at h
      · simp only [h3] at h
        by_cases h4 : (lookupL p.name st.inputMap).isSome = true
        · simp only [h4, if_true] at h
          cases h
          obtain ⟨v, hv⟩ := Option.isSome_iff_exists.mp h4
          exact ⟨v, hv⟩
        · simp only [h4] at h
          cases h
          exact lookupL_append_self p.name st.inputMap (entryPathOf p)

theorem configInitAux_registers (k : Str) :
    ∀ (l : List Page) (st st' : TableState), configInitAux st l = .ok st' →
      k ∈ l.map Page.name → ∃ v, lookupL k st'.inputMap = some v := by
  intro l
  induction l with
  | nil =>
    intro st st' _ hk
    cases hk
  | cons p tl ih =>
    intro st st' h hk
    unfold configInitAux at h
    cases hc : configStep st p with
    | err e =>
      rw [hc] at h
      cases h
    | ok st1 =>
      rw [hc] at h
      rcases List.mem_cons.mp hk with hk1 | hk2
      · obtain ⟨v, hv⟩ := configStep_registers st p st1 hc
        rw [← hk1] at hv
        exact ⟨v, configInitAux_preserves k v tl st1 st' h hv⟩
      · exact ih st1 st' h hk2

/- ======================= C5: dedup priority ============================= -/

/-- Claim C5: table construction iterates explicit pages before discovered
pages and skips any page whose name is already registered, so the entry
for a name carried by an explicit page is determined by the explicit list
alone — identical to the table built from the explicit pages only — for
every discovered list (hence for every discovery order). -/
theorem claim_c5 (template : Str) (explicitPages discovered : List Page) (t : TableState) (n : Str)
    (h : configInitL template (explicitPages ++ discovered) = .ok t)
    (hn : n ∈ explicitPages.map Page.name) :
    ∃ t', configInitL template explicitPages = .ok t'
      ∧ lookupL n t.inputMap = lookupL n t'.inputMap
      ∧ (lookupL n t'.inputMap).isSome := by
  unfold configInitL at h ⊢
  rw [configInitAux_append] at h
  cases hc : configInitAux ⟨[], [], [template]⟩ explicitPages with
  | err e =>
    rw [hc] at h
    cases h
  | ok t' =>
    rw [hc] at h
    obtain ⟨v, hv⟩ := configInitAux_registers n explicitPages ⟨[], [], [template]⟩ t' hc hn
    refine ⟨t', rfl, ?_, by simp [hv]⟩
    rw [hv]
    exact configInitAux_preserves n v discovered t' t h hv

/-- A discovered page also named "a", with a different served file. -/
def pgA2 : Page := { name := "a".data, filename := some ("other.html".data) }

/-- Witness for C5: the explicit page "a" shadows a discovered page "a". -/
theorem claim_c5_witness :
    ∃ t', configInitL ("index.html".data) [pgA] = .ok t'
      ∧ lookupL ("a".data)
          (TableState.mk [(("a").data, ("a.html").data)] [(("a.html").data, pgA)] [("index.html").data]).inputMap
          = lookupL ("a".data) t'.inputMap
      ∧ (lookupL ("a".data) t'.inputMap).isSome :=
  claim_c5 ("index.html".data) [pgA] [pgA2]
    (TableState.mk [(("a").data, ("a.html").data)] [(("a.html").data, pgA)] [("index.html").data])
    ("a".data) (by decide) (by decide)

/- ======================= C7: validation rejection ======================= -/

/-- The configurations the validation block (lines 50-57) actually
rejects: served path starting with a slash, name containing a slash, or a
truthy (nonempty) entry not starting with a slash. -/
def badPage (p : Page) : Prop :=
  startsSlash (entryPathOf p) = true
  ∨ memC '/' p.name = true
  ∨ (∃ e, p.entry = some e ∧ e ≠ [] ∧ startsSlash e = false)

theorem isEmpty_false_of_ne {e : Str} (h : e ≠ []) : e.isEmpty = false := by
  cases e with
  | nil => exact absurd rfl h
  | cons c cs => rfl

theorem configStep_err_of_bad (st : TableState) (p : Page) (h : badPage p) :
    ∃ m, configStep st p = .err m := by
  by_cases h1 : startsSlash (entryPathOf p) = true
  · exact ⟨"Make sure the path relative, received ".data ++ entryPathOf p,
      by simp [configStep, h1]⟩
  · by_cases h2 : memC '/' p.name = true
    · exact ⟨"Page name should not include /, received ".data ++ p.name,
        by simp [configStep, h1, h2]⟩
    · rcases h with ha | hb | ⟨e, he, hne, hs⟩
      · exact absurd ha h1
      · exact absurd hb h2
      · have h3 : (truthyS p.entry && !startsSlash (p.entry.getD [])) = true := by
          rw [he]
          simp [truthyS, isEmpty_false_of_ne hne, hs]
        exact ⟨"Entry must be an absolute path relative to the project root".data,
          by simp [configStep, h1, h2, h3]⟩

theorem configInitAux_err_of_bad :
    ∀ (l : List Page) (st : TableState) (p : Page), p ∈ l → badPage p →
      ∃ m, configInitAux st l = .err m := by
  intro l
  induction l with
  | nil =>
    intro st p hp
    cases hp
  | cons q tl ih =>
    intro st p hp hbad
    rcases List.mem_cons.mp hp with rfl | htl
    · obtain ⟨m, hm⟩ := configStep_err_of_bad st p hbad
      exact ⟨m, by simp [configInitAux, hm]⟩
    · cases hc : configStep st q with
      | ok st1 =>
        obtain ⟨m, hm⟩ := ih st1 p htl hbad
        exact ⟨m, by simp [configInitAux, hc, hm]⟩
      | err e =>
        exact ⟨e, by simp [configInitAux, hc]⟩

/-- Claim C7 as amended: table construction fails with a configuration
error — aborting the whole build, publishing no table — for any page whose
derived or explicit filename begins with `/`, whose name contains `/`, or
whose entry is present, nonempty, and does not begin with `/` (an empty
entry string is JS-falsy and skips the entry check). -/
theorem claim_c7 (template : Str) (pages : List Page) (p : Page)
    (hmem : p ∈ pages) (hbad : badPage p) :
    ∃ m, configInitL template pages = .err m :=
  configInitAux_err_of_bad pages ⟨[], [], [template]⟩ p hmem hbad

/-- A page whose entry is present but the empty string. -/
def pgE : Page := { name := "a".data, entry := some [] }

/-- Claim C7 counterexample: a page whose entry is present but does not
begin with `/` (the empty string) is accepted — construction succeeds and
publishes a table instead of failing. -/
theorem claim_c7_counterexample :
    configInitL ("index.html".data) [pgE]
      = .ok ⟨[(("a").data, ("a.html").data)], [(("a.html").data, pgE)], [("index.html").data]⟩
  ∧ pgE.entry = some []
  ∧ startsSlash ([] : Str) = false := by
  decide

/-- A page with an absolute explicit filename. -/
def pgAbs : Page := { name := "x".data, filename := some ("/abs.html".data) }

/-- Witness for C7: an absolute filename aborts construction. -/
theorem claim_c7_witness :
    ∃ m, configInitL ("index.html".data) [pgAbs] = .err m :=
  claim_c7 ("index.html".data) [pgAbs] pgAbs (by decide) (Or.inl (by decide))

/- ======================= C8: entry injection ============================ -/

theorem expandRepl_lit (m b a : Str) : ∀ r, '$' ∉ r → expandRepl m b a r = r := by
  intro r
  induction r with
  | nil => intro _; rfl
  | cons c cs ih =>
    intro h
    have hc : ¬(c = '$') := fun e => h (by simp [e])
    have hcs : '$' ∉ cs := fun hm => h (List.mem_cons_of_mem _ hm)
    unfold expandRepl
    rw [if_neg hc, ih hcs]

theorem dollar_not_in_script (e : Str) (h : '$' ∉ posixNormalize e) :
    '$' ∉ scriptPre ++ posixNormalize e ++ scriptPost := by
  intro hm
  rcases List.mem_append.mp hm with hm1 | hm2
  · rcases List.mem_append.mp hm1 with ha | hb
    · exact absurd ha (by decide)
    · exact h hb
  · exact absurd hm2 (by decide)

/-- Claim C8 as amended: for a registered page with a nonempty entry whose
normalized path contains no `$` (so no ECMAScript replacement-pattern
expansion applies), and template content whose first closing body tag
splits it as `A ++ </body> ++ B`, rendering produces — inside the
templating pass — `A`, then the module script tag referencing the
normalized entry, then a newline and the closing body tag, then `B`:
everything before the tag and after it is unchanged. -/
theorem claim_c8 (pageMap : List (Str × Page)) (env : List (Str × Str))
    (render : Str → List (Str × Str) → Str) (content i A B : Str) (page : Page) (e : Str)
    (hpg : lookupL i pageMap = some page) (he : page.entry = some e)
    (hne : e.isEmpty = false)
    (hd : '$' ∉ posixNormalize e)
    (hsplit : splitFirst bodyTag content = some (A, B)) :
    transform pageMap env render content i
      = some (render (A ++ (scriptPre ++ posixNormalize e ++ ("\"></script>\n".data ++ bodyTag)) ++ B)
          (transformScope env page.data)) := by
  have hpost : scriptPost = ("\"></script>\n".data) ++ bodyTag := by decide
  have hrepl := expandRepl_lit bodyTag A B _ (dollar_not_in_script e hd)
  simp only [transform, hpg, applyEntry, he, hne, Bool.false_eq_true, if_false,
    replaceFirst, hsplit, hrepl]
  rw [hpost]

/-- A page whose entry path contains the `$&` replacement pattern. -/
def pgD : Page := { name := "a".data, entry := some ("/a$&b".data) }

/-- Claim C8 counterexample: with entry `/a$&b`, the injected text is not
a script tag referencing the normalized entry path — `$&` expands to the
matched `</body>`, so the emitted `src` attribute is `/a</body>b`. -/
theorem claim_c8_counterexample :
    transform [(("a.html").data, pgD)] [] (fun c _ => c) ("X</body>Y".data) ("a.html".data)
      = some (("X<script type=\"module\" src=\"/a</body>b\"></script>\n</body>Y").data)
  ∧ ("X<script type=\"module\" src=\"/a</body>b\"></script>\n</body>Y").data
      ≠ ("X".data ++ (scriptPre ++ posixNormalize ("/a$&b".data) ++ scriptPost) ++ ("Y".data)) := by
  refine ⟨by decide, by decide⟩

/-- Witness for C8: a plain entry path is injected before the body tag. -/
theorem claim_c8_witness :
    transform [(("a.html").data, pgM)] [] (fun c _ => c) ("A</body>B".data) ("a.html".data)
      = some (("A<script type=\"module\" src=\"/src/main.ts\"></script>\n</body>B").data) := by
  have h := claim_c8 [(("a.html").data, pgM)] [] (fun c _ => c) ("A</body>B".data)
    ("a.html".data) ("A".data) ("B".data) pgM ("/src/main.ts".data)
    (by decide) (by decide) (by decide) (by decide) (by decide)
  rw [h]
  decide

/- ======================= C1: composite pattern ========================== -/

/-- Claim C1 counterexample: for base `b` and the single page name `a.b`,
the built pattern differs from the spec's anchored/escaped pattern, and
semantically the build is neither anchored (it matches inside
`/x/b/a.b`, which does not start with `/b/`) nor literal (the name `a.b`
matches the text `aXb`). -/
theorem claim_c1_counterexample :
    rewriteRegSource ("b".data) [("a.b").data] ≠ specCompositePattern ("b".data) [("a.b").data]
  ∧ posixNormalize (('/' :: ("b".data)) ++ ['/']) = ("/b/").data
  ∧ regexSearch ("/b/".data) [("a.b").data] ("/x/b/a.b".data) = some ("a.b".data)
  ∧ regexSearch ("/b/".data) [("a.b").data] ("/b/aXb".data) = some ("aXb".data) := by
  refine ⟨by decide, by decide, by decide, by decide⟩

/-- Claim C1 as amended: the composite pattern is the unanchored form
`normalizePath(/{base}/)(name1|name2|...)(?:\.html?)?(\?|#|$).*` with the
registered names joined verbatim (unescaped); consequently a match may
start at any position — whenever some suffix of the input matches, the
whole input matches. -/
theorem claim_c1 :
    (∀ (base : Str) (names : List Str),
      rewriteRegSource base names = specCompositePatternAmended base names)
  ∧ (∀ (pre : Str) (names : List Str) (s x : Str),
      (regexSearch pre names s).isSome = true →
      (regexSearch pre names (x ++ s)).isSome = true) := by
  constructor
  · intro base names
    rfl
  · intro pre names s x h
    induction x with
    | nil => simpa using h
    | cons c cs ih =>
      rw [List.cons_append]
      cases hm : matchHere pre names (c :: (cs ++ s)) with
      | some t => simp [regexSearch, hm]
      | none =>
        simp only [regexSearch, hm]
        exact ih

/-- Witness for C1: the amended equality at a concrete table, and a match
of `/b/a` found inside `/x/b/a`. -/
theorem claim_c1_witness :
    rewriteRegSource ("b".data) [("a").data] = specCompositePatternAmended ("b".data) [("a").data]
  ∧ (regexSearch ("/b/".data) [("a").data] (("/x".data) ++ ("/b/a".data))).isSome = true :=
  ⟨claim_c1.1 ("b".data) [("a").data],
   claim_c1.2 ("/b/".data) [("a").data] ("/b/a".data) ("/x".data) (by decide)⟩

/- ======================= C4: matcher lemmas ============================= -/

theorem good_ne (c : Char) (h : goodChar c = true) :
    c ≠ '.' ∧ c ≠ '?' ∧ c ≠ '#' ∧ c ≠ '/' := by
  refine ⟨?_, ?_, ?_, ?_⟩ <;> intro e <;> subst e <;> exact absurd h (by decide)

theorem good_no_dot (n : Str) (h : goodName n) : '.' ∉ n :=
  fun hm => absurd (h '.' hm) (by decide)

theorem good_no_slash (n : Str) (h : goodName n) : '/' ∉ n :=
  fun hm => absurd (h '/' hm) (by decide)

theorem consume_lit_some (n : Str) (hdot : '.' ∉ n) :
    ∀ s t r, consume (nameToR n) s = some (t, r) → t = n ∧ s = n ++ r := by
  induction n with
  | nil =>
    intro s t r h
    simp [nameToR, consume] at h
    simp [h.1, h.2]
  | cons c cs ih =>
    intro s t r h
    have hc : ¬(c = '.') := fun e => hdot (by simp [e])
    have hcs : '.' ∉ cs := fun hm => hdot (List.mem_cons_of_mem _ hm)
    cases s with
    | nil => simp [nameToR, consume] at h
    | cons d ds =>
      simp only [nameToR, if_neg hc, consume] at h
      by_cases hcd : c = d
      · rw [if_pos (show rmatches (RChar.lit c) d = true by simp [rmatches, hcd])] at h
        cases hrec : consume (nameToR cs) ds with
        | none => rw [hrec] at h; cases h
        | some pr =>
          obtain ⟨t', r'⟩ := pr
          rw [hrec] at h
          have h2 := Option.some.inj h
          rw [Prod.mk.injEq] at h2
          obtain ⟨ht, hr⟩ := h2
          obtain ⟨ht', hds⟩ := ih hcs ds t' r' hrec
          subst ht'
          subst hds
          subst hr
          subst hcd
          exact ⟨ht.symm, rfl⟩
      · rw [if_neg (show ¬rmatches (RChar.lit c) d = true by simp [rmatches, hcd])] at h
        cases h

theorem consume_self :
    ∀ (n : Str), '.' ∉ n → ∀ r, consume (nameToR n) (n ++ r) = some (n, r) := by
  intro n
  induction n with
  | nil => intro _ r; rfl
  | cons c cs ih =>
    intro hdot r
    have hc : ¬(c = '.') := fun e => hdot (by simp [e])
    have ihr := ih (fun hm => hdot (List.mem_cons_of_mem _ hm)) r
    simp [nameToR, if_neg hc, consume, rmatches, ihr]

theorem tailMatch_cons_good (c : Char) (r : Str)
    (h1 : c ≠ '.') (h2 : c ≠ '?') (h3 : c ≠ '#') : tailMatch (c :: r) = false := by
  have e1 : stripLit htmlExt (c :: r) = none := by
    unfold htmlExt stripLit
    rw [if_neg (fun e => h1 e.symm)]
  have e2 : stripLit htmExt (c :: r) = none := by
    unfold htmExt stripLit
    rw [if_neg (fun e => h1 e.symm)]
  unfold tailMatch
  rw [e1, e2]
  simp [isDelim, h2, h3]

theorem altMatch_eq_some (p suf : Str) (hgp : goodName p)
    (hts : tailMatch suf = true)
    (hB : ∀ n, goodName n → ∀ r, n ++ r = p ++ suf → tailMatch r = true → n = p) :
    ∀ names, goodNames names → p ∈ names → altMatch names (p ++ suf) = some p := by
  intro names
  induction names with
  | nil => intro _ hp; cases hp
  | cons n ns ih =>
    intro hg hp
    have hgn : goodName n := hg n (List.mem_cons_self n ns)
    have hgns : goodNames ns := fun m hm => hg m (List.mem_cons_of_mem n hm)
    unfold altMatch
    cases hc : consume (nameToR n) (p ++ suf) with
    | none =>
      rcases List.mem_cons.mp hp with rfl | htl
      · rw [consume_self p (good_no_dot p hgp) suf] at hc
        cases hc
      · exact ih hgns htl
    | some pr =>
      obtain ⟨t, r⟩ := pr
      obtain ⟨ht, heq⟩ := consume_lit_some n (good_no_dot n hgn) (p ++ suf) t r hc
      dsimp only
      by_cases htm : tailMatch r = true
      · rw [if_pos htm, ht, hB n hgn r heq.symm htm]
      · rw [if_neg htm]
        rcases List.mem_cons.mp hp with hpn | htl
        · exfalso
          rw [← hpn] at heq
          have hsr : suf = r := by
            have h2 := congrArg (List.drop p.length) heq
            simpa [List.drop_left] using h2
          rw [← hsr] at htm
          exact htm hts
        · exact ih hgns htl

theorem altMatch_none (u : Str) (hgu : goodName u) :
    ∀ names, goodNames names → u ∉ names → altMatch names u = none := by
  intro names
  induction names with
  | nil => intro _ _; rfl
  | cons n ns ih =>
    intro hg hu
    have hgn : goodName n := hg n (List.mem_cons_self n ns)
    have hgns : goodNames ns := fun m hm => hg m (List.mem_cons_of_mem n hm)
    have hu2 : u ∉ ns := fun hm => hu (List.mem_cons_of_mem n hm)
    have hun : ¬(u = n) := fun e => hu (by rw [e]; exact List.mem_cons_self n ns)
    unfold altMatch
    cases hc : consume (nameToR n) u with
    | none => exact ih hgns hu2
    | some pr =>
      obtain ⟨t, r⟩ := pr
      obtain ⟨_, heq⟩ := consume_lit_some n (good_no_dot n hgn) u t r hc
      dsimp only
      have htm : tailMatch r = false := by
        cases r with
        | nil =>
          exfalso
          exact hun (by simpa using heq)
        | cons c r' =>
          have hcmem : c ∈ u := by
            rw [heq]
            exact List.mem_append_right n (List.mem_cons_self c r')
          obtain ⟨h1, h2, h3, _⟩ := good_ne c (hgu c hcmem)
          exact tailMatch_cons_good c r' h1 h2 h3
      rw [if_neg (show ¬tailMatch r = true by rw [htm]; simp)]
      exact ih hgns hu2

/-- The query suffix used by the round-trip property of the spec. -/
def qx14 : Str := ['?', 'x', '=', '1']

theorem hB_nil (p : Str) (hgp : goodName p) :
    ∀ n, goodName n → ∀ r, n ++ r = p ++ ([] : Str) → tailMatch r = true → n = p := by
  intro n _ r heq htm
  rw [List.append_nil] at heq
  cases r with
  | nil => simpa using heq
  | cons c r' =>
    have hcmem : c ∈ p := by
      rw [← heq]
      exact List.mem_append_right n (List.mem_cons_self c r')
    obtain ⟨h1, h2, h3, _⟩ := good_ne c (hgp c hcmem)
    rw [tailMatch_cons_good c r' h1 h2 h3] at htm
    cases htm

theorem hB_of_head (p suf : Str) (hgp : goodName p) (x0 : Char)
    (hx0 : suf = x0 :: suf.tail) (hbad : goodChar x0 = false) :
    ∀ n, goodName n → ∀ r, n ++ r = p ++ suf → tailMatch r = true → n = p := by
  intro n hgn r heq htm
  rcases List.append_eq_append_iff.mp heq with ⟨a', ha1, ha2⟩ | ⟨c', hc1, hc2⟩
  · cases a' with
    | nil => simpa using ha1.symm
    | cons x xs =>
      have hx : x ∈ p := by
        rw [ha1]
        exact List.mem_append_right n (List.mem_cons_self x xs)
      obtain ⟨h1, h2, h3, _⟩ := good_ne x (hgp x hx)
      rw [ha2, List.cons_append, tailMatch_cons_good x _ h1 h2 h3] at htm
      cases htm
  · cases c' with
    | nil => simpa using hc1
    | cons x xs =>
      have hx : x = x0 := by
        rw [List.cons_append] at hc2
        rw [hx0] at hc2
        exact (List.cons.injEq x0 suf.tail x (xs ++ r)).mp hc2 |>.1 |>.symm
      have hxn : x ∈ n := by
        rw [hc1]
        exact List.mem_append_right p (List.mem_cons_self x xs)
      have hgx := hgn x hxn
      rw [hx, hbad] at hgx
      cases hgx

theorem matchHere_append (pre : Str) (names : List Str) (text : Str) :
    matchHere pre names (pre ++ text) = altMatch names text := by
  simp [matchHere, stripLit_self]

theorem regexSearch_of_matchHere (pre : Str) (names : List Str) (s t : Str)
    (h : matchHere pre names s = some t) : regexSearch pre names s = some t := by
  cases s with
  | nil => simpa [regexSearch] using h
  | cons c cs => simp [regexSearch, h]

theorem takeWhile_stop (p : Char → Bool) (a : Str) (ha : ∀ c ∈ a, p c = true)
    (b : Char) (hb : p b = false) (z : Str) :
    (a ++ b :: z).takeWhile p = a := by
  induction a with
  | nil => simp [List.takeWhile_cons, hb]
  | cons c cs ih =>
    have hc := ha c (List.mem_cons_self c cs)
    simp only [List.cons_append, List.takeWhile_cons, hc, if_true]
    rw [ih fun d hd => ha d (List.mem_cons_of_mem c hd)]

theorem afterLastSlash_append (x y : Str) (hy : '/' ∉ y) :
    afterLastSlash (x ++ '/' :: y) = y := by
  unfold afterLastSlash
  rw [List.reverse_append, List.reverse_cons, List.append_assoc]
  have hstop : (y.reverse ++ (['/'] ++ x.reverse)).takeWhile (fun c => !(c = '/')) = y.reverse := by
    rw [List.singleton_append]
    refine takeWhile_stop _ y.reverse ?_ '/' (by simp) x.reverse
    intro c hc
    have : c ≠ '/' := fun e => hy (e ▸ List.mem_reverse.mp hc)
    simp [this]
  rw [hstop, List.reverse_reverse]

theorem no_strict_suffix_match (q u : Str) (hu : '/' ∉ u) (hune : u ≠ []) :
    ∀ w r, w ≠ [] → w ++ ((q ++ ['/']) ++ r) = (q ++ ['/']) ++ u → False := by
  intro w r hw heq
  have hr : r = u.drop w.length := by
    have h2 := congrArg (List.drop (w.length + (q.length + 1))) heq
    have e1 : (w ++ ((q ++ ['/']) ++ r)).drop (w.length + (q.length + 1)) = r := by
      rw [← List.append_assoc]
      have : (w ++ (q ++ ['/'])).length = w.length + (q.length + 1) := by
        simp [List.length_append]
      rw [← this]
      exact List.drop_left _ _
    have e2 : ((q ++ ['/']) ++ u).drop (w.length + (q.length + 1)) = u.drop w.length := by
      have : w.length + (q.length + 1) = (q ++ ['/']).length + w.length := by
        simp [List.length_append]
        omega
      rw [this, List.drop_append]
    rw [e1, e2] at h2
    exact h2
  have hur : '/' ∉ r := fun hm => hu (List.mem_of_mem_drop (hr ▸ hm))
  have hals : r = u := by
    have hl : afterLastSlash (w ++ ((q ++ ['/']) ++ r)) = r := by
      have : w ++ ((q ++ ['/']) ++ r) = (w ++ q) ++ '/' :: r := by
        simp [List.append_assoc]
      rw [this]
      exact afterLastSlash_append (w ++ q) r hur
    have hrr : afterLastSlash ((q ++ ['/']) ++ u) = u := by
      have : (q ++ ['/']) ++ u = q ++ '/' :: u := by
        simp
      rw [this]
      exact afterLastSlash_append q u hu
    rw [heq, hrr] at hl
    exact hl.symm
  have hdrop : u = List.drop w.length u := hals ▸ hr
  have hlen := congrArg List.length hdrop
  rw [List.length_drop] at hlen
  have h1 : 0 < u.length := List.length_pos.mpr hune
  have h2 : 0 < w.length := List.length_pos.mpr hw
  omega

theorem regexSearch_tail_none (q u : Str) (names : List Str) (hu : '/' ∉ u) (hune : u ≠ []) :
    ∀ t w, w ≠ [] → w ++ t = (q ++ ['/']) ++ u → regexSearch (q ++ ['/']) names t = none := by
  intro t
  induction t with
  | nil =>
    intro w hw heq
    have hpre : stripLit (q ++ ['/']) [] = none := stripLit_nil_none _ (by simp)
    simp [regexSearch, matchHere, hpre]
  | cons c cs ih =>
    intro w hw heq
    have hmh : matchHere (q ++ ['/']) names (c :: cs) = none := by
      unfold matchHere
      cases hs : stripLit (q ++ ['/']) (c :: cs) with
      | none => rfl
      | some r =>
        exfalso
        have hccs := stripLit_some (q ++ ['/']) (c :: cs) r hs
        rw [hccs] at heq
        exact no_strict_suffix_match q u hu hune w r hw heq
    simp only [regexSearch, hmh]
    exact ih (w ++ [c]) (by simp) (by rw [List.append_assoc, List.singleton_append]; exact heq)

theorem regexSearch_unknown (q u : Str) (names : List Str) (hgu : goodName u) (hune : u ≠ [])
    (hg : goodNames names) (hun : u ∉ names) :
    regexSearch (q ++ ['/']) names ((q ++ ['/']) ++ u) = none := by
  have hmh : matchHere (q ++ ['/']) names ((q ++ ['/']) ++ u) = none := by
    rw [matchHere_append]
    exact altMatch_none u hgu names hg hun
  have hslash : '/' ∉ u := good_no_slash u hgu
  cases hx : (q ++ ['/']) ++ u with
  | nil =>
    exfalso
    have := congrArg List.length hx
    simp [List.length_append] at this
  | cons c cs =>
    rw [hx] at hmh
    simp only [regexSearch, hmh]
    exact regexSearch_tail_none q u names hslash hune cs [c] (by simp)
      (by rw [List.singleton_append, ← hx])

theorem resolveRoute_hit (pre : Str) (inputMap : List (Str × Str)) (p f suf : Str)
    (hg : goodNames (tableNames inputMap))
    (hp : lookupL p inputMap = some f) (hpne : p ≠ []) (hfne : f ≠ [])
    (hts : tailMatch suf = true)
    (hB : ∀ n, goodName n → ∀ r, n ++ r = p ++ suf → tailMatch r = true → n = p) :
    resolveRoute pre inputMap (pre ++ (p ++ suf)) = some f := by
  have hpmem : p ∈ tableNames inputMap := lookupL_mem p inputMap f hp
  have hgp : goodName p := hg p hpmem
  have halt := altMatch_eq_some p suf hgp hts hB (tableNames inputMap) hg hpmem
  have hsr : regexSearch pre (tableNames inputMap) (pre ++ (p ++ suf)) = some p :=
    regexSearch_of_matchHere pre (tableNames inputMap) (pre ++ (p ++ suf)) p
      (by rw [matchHere_append]; exact halt)
  simp [resolveRoute, hsr, isEmpty_false_of_ne hpne, hp, isEmpty_false_of_ne hfne]

/-- Claim C4 as amended: restricted to tables whose page names are
nonempty and use only literal characters (no regex metacharacter —
including `.` and `?` — and no `#` or `/`), resolving `/{base}/p`,
`/{base}/p.html`, and `/{base}/p?x=1` each yields the page's served path,
and resolving `/{base}/u` for such a name `u` not in the table yields none;
without the restriction a registered name can shadow another (see the
counterexample).  Moreover, any match whose captured text is absent from
the name map yields none rather than an error. -/
theorem claim_c4 :
    (∀ (pre : Str) (inputMap : List (Str × Str)) (p f : Str),
      goodNames (tableNames inputMap) → lookupL p inputMap = some f → p ≠ [] → f ≠ [] →
        resolveRoute pre inputMap (pre ++ p) = some f
      ∧ resolveRoute pre inputMap (pre ++ (p ++ htmlExt)) = some f
      ∧ resolveRoute pre inputMap (pre ++ (p ++ qx14)) = some f)
  ∧ (∀ (q u : Str) (inputMap : List (Str × Str)),
      goodNames (tableNames inputMap) → goodName u → u ≠ [] → u ∉ tableNames inputMap →
        resolveRoute (q ++ ['/']) inputMap ((q ++ ['/']) ++ u) = none)
  ∧ (∀ (pre pn key : Str) (inputMap : List (Str × Str)),
      regexSearch pre (tableNames inputMap) pn = some key →
      lookupL key inputMap = none → resolveRoute pre inputMap pn = none) := by
  refine ⟨?_, ?_, ?_⟩
  · intro pre inputMap p f hg hp hpne hfne
    have hpmem : p ∈ tableNames inputMap := lookupL_mem p inputMap f hp
    have hgp : goodName p := hg p hpmem
    refine ⟨?_, ?_, ?_⟩
    · have h := resolveRoute_hit pre inputMap p f [] hg hp hpne hfne (by decide) (hB_nil p hgp)
      simpa using h
    · exact resolveRoute_hit pre inputMap p f htmlExt hg hp hpne hfne (by decide)
        (hB_of_head p htmlExt hgp '.' (by decide) (by decide))
    · exact resolveRoute_hit pre inputMap p f qx14 hg hp hpne hfne (by decide)
        (hB_of_head p qx14 hgp '?' (by decide) (by decide))
  · intro q u inputMap hg hgu hune hun
    have hsr := regexSearch_unknown q u (tableNames inputMap) hgu hune hg hun
    simp only [List.append_assoc, List.singleton_append] at hsr
    simp [resolveRoute, hsr]
  · intro pre pn key inputMap hs hl
    unfold resolveRoute
    rw [hs]
    by_cases hk : key.isEmpty = true
    · simp [hk]
    · simp [hk, hl]

/-- The table built from the pages named `a` and `a.html`. -/
def c4Table : List (Str × Str) :=
  [(("a").data, ("a.html").data), (("a.html").data, ("a.html.html").data)]

/-- A page named "a.html". -/
def pgAh : Page := { name := "a.html".data }

/-- Claim C4 counterexample: with registered pages `a` and `a.html` (both
legal names) under base `b`, the page `a.html` is mapped to
`a.html.html`, yet resolving `/b/a.html` yields `a.html` — the file of
page `a` — because the unescaped alternation lets the earlier name `a`
match with the optional `.html` group.  The claimed round trip fails. -/
theorem claim_c4_counterexample :
    configInitL ("index.html".data) [pgA, pgAh]
      = .ok ⟨c4Table, [(("a.html").data, pgA), (("a.html.html").data, pgAh)], [("index.html").data]⟩
  ∧ lookupL ("a.html".data) c4Table = some ("a.html.html".data)
  ∧ resolveRoute ("/b/".data) c4Table ("/b/a.html".data) = some ("a.html".data)
  ∧ some ("a.html".data) ≠ some ("a.html.html".data) := by
  refine ⟨by decide, by decide, by decide, by decide⟩

/-- Witness for C4: all three parts at concrete tables. -/
theorem claim_c4_witness :
    (resolveRoute ("/b/".data) [(("page").data, ("page.html").data)]
        (("/b/".data) ++ ("page".data)) = some ("page.html".data)
      ∧ resolveRoute ("/b/".data) [(("page").data, ("page.html").data)]
          (("/b/".data) ++ (("page".data) ++ htmlExt)) = some ("page.html".data)
      ∧ resolveRoute ("/b/".data) [(("page").data, ("page.html").data)]
          (("/b/".data) ++ (("page".data) ++ qx14)) = some ("page.html".data))
  ∧ resolveRoute (("/b".data) ++ ['/']) [(("page").data, ("page.html").data)]
      ((("/b".data) ++ ['/']) ++ ("nope".data)) = none
  ∧ resolveRoute ("/b/".data) [(("a.b").data, ("f.html").data)] ("/b/aXb".data) = none := by
  refine ⟨?_, ?_, ?_⟩
  · exact claim_c4.1 ("/b/".data) [(("page").data, ("page.html").data)]
      ("page".data) ("page.html".data) (by decide) (by decide) (by decide) (by decide)
  · exact claim_c4.2.1 ("/b".data) ("nope".data) [(("page").data, ("page.html").data)]
      (by decide) (by decide) (by decide) (by decide)
  · exact claim_c4.2.2 ("/b/".data) ("/b/aXb".data) ("aXb".data)
      [(("a.b").data, ("f.html").data)] (by decide) (by decide)
